import Mathlib

/-!
Verification of the Version Resolution & Change-Detection Engine of the
stack-discord-bot repository (src/index.ts), as a shallow embedding.

Conventions of the embedding:
* JavaScript string-keyed records (`Record<string, T>`) become association
  lists `List (String × T)` with first-match lookup (`getKey`) and
  replace-or-append update (`setKey`).
* The `last_updated` field of a tag record is consumed by the source only
  through `new Date(s).getTime()`; we model that numeric timestamp directly
  as a `Nat` (epoch milliseconds).
* `Array.prototype.sort(cmp)` is stable (ECMAScript 2019); we model it by a
  stable insertion sort `sortJS` driven by the same integer comparator.
  For a consistent comparator a stable sort's output is unique, so any
  conforming engine agrees with this model.
* The node-semver library calls used by the source (`coerce`, `valid`,
  `rcompare`) are modelled from that library's documented semantics:
  `coerce` matches the leftmost `major[.minor[.patch]]` digit groups
  (each 1..16 digits, delimited by non-digits) and then validates the
  resulting plain `x.y.z` (components without leading zeros and at most
  `Number.MAX_SAFE_INTEGER`); a coerced version never carries a prerelease
  component, and `rcompare` on coerced versions is descending
  lexicographic order on (major, minor, patch).
* Network effects (`fetch` pagination) are modelled by an explicit oracle:
  the finite list of page responses the registry would serve; exhausting
  the oracle counts as a failing call.
-/

/-- A published tag as returned by the registry: tag name plus the
`last_updated` timestamp (modelled as epoch milliseconds, the value the
source extracts with `new Date(t.updated).getTime()`). -/
structure TagRecord where
  tag : String
  updated : Nat
deriving DecidableEq

/-- Association-list lookup, modelling `record[key]` (first match). -/
def getKey {α : Type} : List (String × α) → String → Option α
  | [], _ => none
  | (k', v) :: rest, k => if k' = k then some v else getKey rest k

/-- Association-list update, modelling `record[key] = value`. -/
def setKey {α : Type} : List (String × α) → String → α → List (String × α)
  | [], k, v => [(k, v)]
  | (k', v') :: rest, k, v =>
    if k' = k then (k, v) :: rest else (k', v') :: setKey rest k v

/-- Model of JavaScript `String.prototype.startsWith`. -/
def jsStartsWith (s p : String) : Bool := p.data.isPrefixOf s.data

/-- Splits off the leading maximal run of decimal digits. -/
def takeDigits : List Char → List Char × List Char
  | [] => ([], [])
  | c :: cs =>
    if c.isDigit then
      let r := takeDigits cs
      (c :: r.1, r.2)
    else ([], c :: cs)

/-- Numeric value of a run of decimal digits. -/
def digitsToNat (ds : List Char) : Nat :=
  ds.foldl (fun n c => n * 10 + (c.toNat - 48)) 0

/-- JavaScript `Number.MAX_SAFE_INTEGER`; node-semver rejects numeric
components above it. -/
def MAX_SAFE_INTEGER : Nat := 9007199254740991

/-- Attempts the node-semver COERCE match at the current position, which
must start with a digit whose predecessor (if any) is a non-digit.  Mirrors
the regex `(^|[^\d])(\d{1,16})(?:\.(\d{1,16}))?(?:\.(\d{1,16}))?($|[^\d])`
with its greedy/backtracking behaviour: a component run longer than 16
digits makes that optional group unmatched (and a major run longer than 16
digits makes the whole position fail).  Returns the matched digit runs for
major, minor, patch (absent groups default to the run `"0"`). -/
def coerceFrom (cs : List Char) : Option (List Char × List Char × List Char) :=
  let m := takeDigits cs
  if m.1.length > 16 then none
  else
    match m.2 with
    | '.' :: cs2 =>
      let mi := takeDigits cs2
      if mi.1.length = 0 || mi.1.length > 16 then some (m.1, ['0'], ['0'])
      else
        match mi.2 with
        | '.' :: cs3 =>
          let pa := takeDigits cs3
          if pa.1.length = 0 || pa.1.length > 16 then some (m.1, mi.1, ['0'])
          else some (m.1, mi.1, pa.1)
        | _ => some (m.1, mi.1, ['0'])
    | _ => some (m.1, ['0'], ['0'])

/-- Scans for the leftmost position where the COERCE regex matches.  The
Boolean flag records whether the previous character was a digit (a match
may only start at the string start or after a non-digit). -/
def coerceScan : List Char → Bool → Option (List Char × List Char × List Char)
  | [], _ => none
  | c :: cs, prevDigit =>
    if c.isDigit then
      if prevDigit then coerceScan cs true
      else
        match coerceFrom (c :: cs) with
        | some v => some v
        | none => coerceScan cs true
    else coerceScan cs false

/-- A numeric component of the rebuilt `major.minor.patch` string is valid
for node-semver's strict parse when it has no leading zero and does not
exceed `MAX_SAFE_INTEGER`. -/
def validComponent (ds : List Char) : Bool :=
  (ds.length == 1 || ds.head? != some '0') &&
    decide (digitsToNat ds ≤ MAX_SAFE_INTEGER)

/-- Model of node-semver `coerce` (composed with `valid`/`parse` exactly as
the source uses it): the leftmost regex match is rebuilt into
`major.minor.patch` and strictly parsed; the result, when present, is the
bare version triple — coercion drops any prerelease-style suffix instead
of rejecting it. -/
def coerce (s : String) : Option (Nat × Nat × Nat) :=
  match coerceScan s.data false with
  | none => none
  | some (ma, mi, pa) =>
    if validComponent ma && validComponent mi && validComponent pa then
      some (digitsToNat ma, digitsToNat mi, digitsToNat pa)
    else none

/-- A catalog entry that survived the semver-coercibility filter of
`findLatestMatchingTag`, carrying its coerced version. -/
structure Candidate where
  tag : String
  version : Nat × Nat × Nat
  updated : Nat
deriving DecidableEq

/-- The `semverCandidates` list of `findLatestMatchingTag` (index.ts
lines 124-130): entries whose tag coerces to a valid semver, paired with
the coerced version. -/
def semverCandidates (tags : List TagRecord) : List Candidate :=
  (tags.filter fun t => (coerce t.tag).isSome).map fun t =>
    ⟨t.tag, (coerce t.tag).getD (0, 0, 0), t.updated⟩

/-- Strict lexicographic order on coerced version triples; this is semver
precedence restricted to versions without prerelease components, which is
all `coerce` can produce. -/
def verLtb (a b : Nat × Nat × Nat) : Bool :=
  if a.1 ≠ b.1 then decide (a.1 < b.1)
  else if a.2.1 ≠ b.2.1 then decide (a.2.1 < b.2.1)
  else decide (a.2.2 < b.2.2)

/-- Model of node-semver `rcompare` on coerced versions: negative when the
first argument is the larger version, so sorting ascending by this
comparator orders versions descending. -/
def rcompare (a b : Nat × Nat × Nat) : Int :=
  if verLtb b a then -1 else if verLtb a b then 1 else 0

/-- The comparator of index.ts line 146. -/
def verCmp (a b : Candidate) : Int := rcompare a.version b.version

/-- The comparator of index.ts lines 133-135:
`new Date(b.updated).getTime() - new Date(a.updated).getTime()`. -/
def dateCmp (a b : Candidate) : Int := (b.updated : Int) - (a.updated : Int)

/-- Stable insertion modelling where a JavaScript stable sort places a new
element relative to an already sorted run: before the first element it
strictly precedes under the comparator. -/
def insertJS {α : Type} (cmp : α → α → Int) (x : α) : List α → List α
  | [] => [x]
  | y :: ys => if cmp x y < 0 then x :: y :: ys else y :: insertJS cmp x ys

/-- Model of `Array.prototype.sort(cmp)` (stable, as ECMAScript requires;
unique for a consistent comparator). -/
def sortJS {α : Type} (cmp : α → α → Int) (l : List α) : List α :=
  l.foldl (fun acc x => insertJS cmp x acc) []

/-- The filter of index.ts lines 139-145: entries whose tag extends the
running tag as a dotted sub-version, equals it, or extends it as a
qualified variant. -/
def matchingCandidates (tags : List TagRecord) (baseTag : String) : List Candidate :=
  (semverCandidates tags).filter fun t =>
    jsStartsWith t.tag (baseTag ++ ".") || t.tag == baseTag ||
      jsStartsWith t.tag (baseTag ++ "-")

/-- `findLatestMatchingTag` (index.ts lines 120-149). -/
def findLatestMatchingTag (tags : List TagRecord) (baseTag : String) : Option String :=
  if baseTag = "latest" then
    ((sortJS dateCmp (semverCandidates tags)).head?).map Candidate.tag
  else
    ((sortJS verCmp (matchingCandidates tags baseTag)).head?).map Candidate.tag

/-- The persisted `VersionMap` state (index.ts lines 22-25): per image, the
last latest tag computed and whether it has been announced. -/
structure VState where
  images : List (String × String)
  announced : List (String × Bool)
deriving DecidableEq

/-- The Change Tracker branch logic of `checkForNewVersions`
(index.ts lines 168-195), for an image whose latest tag was resolved:
suppress when this exact latest tag was already announced, otherwise
notify exactly when the running tag differs, and record the pair
`images[image] = latestTag`, `announced[image] = true`. -/
def evaluate (image runningTag latestTag : String) (st : VState) : Bool × VState :=
  if (getKey st.announced image).getD false && (getKey st.images image == some latestTag) then
    (false, st)
  else
    (runningTag != latestTag,
     ⟨setKey st.images image latestTag, setKey st.announced image true⟩)

/-- The evolving outcome of one poll cycle: in-memory state, the embeds
collected so far, and the log of states written to disk by
`saveVersionData` (index.ts lines 43-45), in write order. -/
structure CycleState where
  state : VState
  embeds : List (String × String × String)
  persistLog : List VState
deriving DecidableEq

/-- One iteration of the per-image loop of `checkForNewVersions`
(index.ts lines 158-199).  `resolve` abstracts `getMatchingLatestTag`
(registry fetch plus matcher); `none` covers both a null match and a
caught per-image exception, which leave all state untouched.  An embed is
recorded as the triple (image, runningTag, latestTag). -/
def processImage (resolve : String → String → Option String)
    (acc : CycleState) (ri : String × String) : CycleState :=
  match resolve ri.1 ri.2 with
  | none => acc
  | some latest =>
    if (getKey acc.state.announced ri.1).getD false &&
        (getKey acc.state.images ri.1 == some latest) then
      acc
    else
      ⟨⟨setKey acc.state.images ri.1 latest, setKey acc.state.announced ri.1 true⟩,
       if ri.2 != latest then acc.embeds ++ [(ri.1, ri.2, latest)] else acc.embeds,
       acc.persistLog ++
         [⟨setKey acc.state.images ri.1 latest, setKey acc.state.announced ri.1 true⟩]⟩

/-- The full per-image loop of `checkForNewVersions` over the running
images, starting from the loaded state. -/
def checkForNewVersions (resolve : String → String → Option String)
    (runningImages : List (String × String)) (st0 : VState) : CycleState :=
  runningImages.foldl (processImage resolve) ⟨st0, [], []⟩

/-- `chunkArray` (index.ts lines 209-215).  The source's loop would not
terminate for `size = 0` (it is only ever called with `size = 10`); that
unreachable case is mapped to `[]`. -/
def chunkArray {α : Type} (l : List α) (size : Nat) : List (List α) :=
  if l.isEmpty || size == 0 then []
  else l.take size :: chunkArray (l.drop size) size
termination_by l.length
decreasing_by
  simp only [Bool.or_eq_true, beq_iff_eq, not_or, List.isEmpty_iff] at *
  have h1 : l ≠ [] := by tauto
  have h2 : 0 < l.length := List.length_pos.mpr h1
  simp only [List.length_drop]
  omega

/-- The batching step of `checkForNewVersions` (index.ts lines 201-206):
the collected embeds are delivered to the channel in `chunkArray`
groups of 10, in order. -/
def sendBatches (embeds : List (String × String × String)) :
    List (List (String × String × String)) :=
  chunkArray embeds 10

/-- One page response of the registry, as consumed by
`getAllDockerHubTags`: either a failure (network error or non-2xx status,
both of which throw in the source) or a JSON page with its `results` and
the presence of a `next` page. -/
inductive PageResp where
  | fail : PageResp
  | page (results : List TagRecord) (next : Bool) : PageResp
deriving DecidableEq

/-- Result of one `getAllDockerHubTags` call: the returned tag list, the
cache afterwards, and how many HTTP requests were issued. -/
structure FetchResult where
  tags : List TagRecord
  cache : List (String × List TagRecord)
  networkCalls : Nat
deriving DecidableEq

/-- The pagination loop of `getAllDockerHubTags` (index.ts lines 98-111)
against an oracle of page responses: accumulate `results` while `next`
is present; a failing response (or an exhausted oracle) aborts the loop
with the tags accumulated so far and a `false` success flag (the caught
exception path).  Returns (tags, success, requests issued). -/
def fetchLoop : List PageResp → List TagRecord → List TagRecord × Bool × Nat
  | [], acc => (acc, false, 1)
  | PageResp.fail :: _, acc => (acc, false, 1)
  | PageResp.page rs next :: rest, acc =>
    if next then
      let r := fetchLoop rest (acc ++ rs)
      (r.1, r.2.1, r.2.2 + 1)
    else (acc ++ rs, true, 1)

/-- `getAllDockerHubTags` (index.ts lines 77-118): a cache hit returns the
cached list with no network traffic; otherwise the pagination loop runs
and the result is cached only when the loop completed successfully
(line 112 is inside the `try`, before the `catch`). -/
def getAllDockerHubTags (cache : List (String × List TagRecord)) (image : String)
    (oracle : List PageResp) : FetchResult :=
  match getKey cache image with
  | some ts => ⟨ts, cache, 0⟩
  | none =>
    let r := fetchLoop oracle []
    ⟨r.1, if r.2.1 then setKey cache image r.1 else cache, r.2.2⟩

/-- One step of the selection a stable descending sort performs at its
head: the running best is replaced exactly when the new element strictly
beats it. -/
def fmStep {α : Type} (wins : α → α → Bool) : Option α → α → Option α
  | none, x => some x
  | some b, x => if wins x b then some x else some b

/-- The first element of a list that strictly beats (under `wins`) every
element before it and is not strictly beaten by any element after it:
the head a stable sort produces. -/
def firstMaxBy {α : Type} (wins : α → α → Bool) (l : List α) : Option α :=
  l.foldl (fmStep wins) none

theorem head_insertJS {α : Type} (cmp : α → α → Int) (x : α) (l : List α) :
    (insertJS cmp x l).head? = fmStep (fun a b => decide (cmp a b < 0)) l.head? x := by
  cases l with
  | nil => rfl
  | cons y ys =>
    by_cases h : cmp x y < 0 <;> simp [insertJS, fmStep, h]

theorem head_foldl_insertJS {α : Type} (cmp : α → α → Int) :
    ∀ (l acc : List α),
      (l.foldl (fun acc x => insertJS cmp x acc) acc).head? =
        l.foldl (fmStep (fun a b => decide (cmp a b < 0))) acc.head? := by
  intro l
  induction l with
  | nil => intro acc; rfl
  | cons x xs ih =>
    intro acc
    rw [List.foldl_cons, List.foldl_cons, ih, head_insertJS]

theorem head_sortJS {α : Type} (cmp : α → α → Int) (l : List α) :
    (sortJS cmp l).head? = firstMaxBy (fun a b => decide (cmp a b < 0)) l :=
  head_foldl_insertJS cmp l []

theorem foldl_fmStep_mem {α : Type} (wins : α → α → Bool) :
    ∀ (l : List α) (b m : α), l.foldl (fmStep wins) (some b) = some m →
      m = b ∨ m ∈ l := by
  intro l
  induction l with
  | nil =>
    intro b m h
    exact Or.inl (Option.some_injective _ h.symm)
  | cons x xs ih =>
    intro b m h
    rw [List.foldl_cons] at h
    by_cases hxb : wins x b = true
    · rw [show fmStep wins (some b) x = some x from by simp [fmStep, hxb]] at h
      rcases ih x m h with h1 | h1
      · exact Or.inr (h1 ▸ List.mem_cons_self x xs)
      · exact Or.inr (List.mem_cons_of_mem x h1)
    · rw [show fmStep wins (some b) x = some b from by
        simp [fmStep, Bool.eq_false_iff.mpr hxb]] at h
      rcases ih b m h with h1 | h1
      · exact Or.inl h1
      · exact Or.inr (List.mem_cons_of_mem x h1)

theorem firstMaxBy_mem {α : Type} (wins : α → α → Bool) (l : List α) (m : α)
    (h : firstMaxBy wins l = some m) : m ∈ l := by
  cases l with
  | nil => simp [firstMaxBy] at h
  | cons x xs =>
    have h' : xs.foldl (fmStep wins) (some x) = some m := by
      simpa [firstMaxBy, fmStep] using h
    rcases foldl_fmStep_mem wins xs x m h' with h1 | h1
    · exact h1 ▸ List.mem_cons_self x xs
    · exact List.mem_cons_of_mem x h1

theorem foldl_fmStep_spec {α : Type} (wins : α → α → Bool)
    (hirr : ∀ a, wins a a = false)
    (htrans : ∀ a b c, wins a b = true → wins b c = true → wins a c = true)
    (hneg : ∀ a b c, wins a b = false → wins b c = false → wins a c = false) :
    ∀ (l : List α) (b m : α), l.foldl (fmStep wins) (some b) = some m →
      wins b m = false ∧ ∀ y ∈ l, wins y m = false := by
  intro l
  induction l with
  | nil =>
    intro b m h
    have hb : m = b := Option.some_injective _ h.symm
    subst hb
    exact ⟨hirr m, by intro y hy; cases hy⟩
  | cons x xs ih =>
    intro b m h
    rw [List.foldl_cons] at h
    by_cases hxb : wins x b = true
    · rw [show fmStep wins (some b) x = some x from by simp [fmStep, hxb]] at h
      obtain ⟨hxm, hys⟩ := ih x m h
      have hbm : wins b m = false := by
        cases hb : wins b m with
        | false => rfl
        | true => exact absurd (htrans x b m hxb hb) (by simp [hxm])
      refine ⟨hbm, ?_⟩
      intro y hy
      rcases List.mem_cons.mp hy with h1 | h1
      · exact h1 ▸ hxm
      · exact hys y h1
    · have hxb' : wins x b = false := Bool.eq_false_iff.mpr hxb
      rw [show fmStep wins (some b) x = some b from by simp [fmStep, hxb']] at h
      obtain ⟨hbm, hys⟩ := ih b m h
      refine ⟨hbm, ?_⟩
      intro y hy
      rcases List.mem_cons.mp hy with h1 | h1
      · exact h1 ▸ hneg x b m hxb' hbm
      · exact hys y h1

theorem firstMaxBy_max {α : Type} (wins : α → α → Bool)
    (hirr : ∀ a, wins a a = false)
    (htrans : ∀ a b c, wins a b = true → wins b c = true → wins a c = true)
    (hneg : ∀ a b c, wins a b = false → wins b c = false → wins a c = false)
    (l : List α) (m : α) (h : firstMaxBy wins l = some m) :
    ∀ y ∈ l, wins y m = false := by
  cases l with
  | nil => simp [firstMaxBy] at h
  | cons x xs =>
    have h' : xs.foldl (fmStep wins) (some x) = some m := by
      simpa [firstMaxBy, fmStep] using h
    obtain ⟨hxm, hys⟩ := foldl_fmStep_spec wins hirr htrans hneg xs x m h'
    intro y hy
    rcases List.mem_cons.mp hy with h1 | h1
    · exact h1 ▸ hxm
    · exact hys y h1

theorem foldl_fmStep_firstMax {α : Type} (k : α → Nat) :
    ∀ (l : List α) (b m : α),
      l.foldl (fmStep (fun x y => decide (k y < k x))) (some b) = some m →
      (m = b ∧ ∀ y ∈ l, k y ≤ k b) ∨
      (∃ p q, l = p ++ m :: q ∧ (∀ y ∈ p, k y < k m) ∧ k b < k m ∧
        ∀ y ∈ q, k y ≤ k m) := by
  intro l
  induction l with
  | nil =>
    intro b m h
    exact Or.inl ⟨Option.some_injective _ h.symm, by intro y hy; cases hy⟩
  | cons x xs ih =>
    intro b m h
    rw [List.foldl_cons] at h
    by_cases hxb : k b < k x
    · rw [show fmStep (fun x y => decide (k y < k x)) (some b) x = some x from by
        simp [fmStep, hxb]] at h
      rcases ih x m h with ⟨h1, h2⟩ | ⟨p, q, h1, h2, h3, h4⟩
      · subst h1
        exact Or.inr ⟨[], xs, rfl, fun y hy => absurd hy (List.not_mem_nil y), hxb, h2⟩
      · refine Or.inr ⟨x :: p, q, by rw [h1]; rfl, ?_, lt_trans hxb h3, h4⟩
        intro y hy
        rcases List.mem_cons.mp hy with h5 | h5
        · exact h5 ▸ h3
        · exact h2 y h5
    · rw [show fmStep (fun x y => decide (k y < k x)) (some b) x = some b from by
        simp [fmStep, hxb]] at h
      rcases ih b m h with ⟨h1, h2⟩ | ⟨p, q, h1, h2, h3, h4⟩
      · refine Or.inl ⟨h1, ?_⟩
        intro y hy
        rcases List.mem_cons.mp hy with h5 | h5
        · subst h1; exact h5 ▸ Nat.le_of_not_lt hxb
        · exact h2 y h5
      · refine Or.inr ⟨x :: p, q, by rw [h1]; rfl, ?_, h3, h4⟩
        intro y hy
        rcases List.mem_cons.mp hy with h5 | h5
        · exact h5 ▸ lt_of_le_of_lt (Nat.le_of_not_lt hxb) h3
        · exact h2 y h5

theorem firstMaxBy_first {α : Type} (k : α → Nat) (l : List α) (m : α)
    (h : firstMaxBy (fun x y => decide (k y < k x)) l = some m) :
    ∃ p q, l = p ++ m :: q ∧ (∀ y ∈ p, k y < k m) ∧ ∀ y ∈ l, k y ≤ k m := by
  cases l with
  | nil => simp [firstMaxBy] at h
  | cons x xs =>
    have h' : xs.foldl (fmStep (fun x y => decide (k y < k x))) (some x) = some m := by
      simpa [firstMaxBy, fmStep] using h
    rcases foldl_fmStep_firstMax k xs x m h' with ⟨h1, h2⟩ | ⟨p, q, h1, h2, h3, h4⟩
    · subst h1
      refine ⟨[], xs, rfl, fun y hy => absurd hy (List.not_mem_nil y), ?_⟩
      intro y hy
      rcases List.mem_cons.mp hy with h5 | h5
      · exact h5 ▸ Nat.le_refl _
      · exact h2 y h5
    · refine ⟨x :: p, q, by rw [h1]; rfl, ?_, ?_⟩
      · intro y hy
        rcases List.mem_cons.mp hy with h5 | h5
        · exact h5 ▸ h3
        · exact h2 y h5
      · intro y hy
        rcases List.mem_cons.mp hy with h5 | h5
        · exact h5 ▸ Nat.le_of_lt h3
        · rw [h1] at h5
          rcases List.mem_append.mp h5 with h6 | h6
          · exact Nat.le_of_lt (h2 y h6)
          · rcases List.mem_cons.mp h6 with h7 | h7
            · exact h7 ▸ Nat.le_refl _
            · exact h4 y h7

theorem verLtb_iff (a b : Nat × Nat × Nat) :
    verLtb a b = true ↔
      (a.1 < b.1 ∨ (a.1 = b.1 ∧ (a.2.1 < b.2.1 ∨ (a.2.1 = b.2.1 ∧ a.2.2 < b.2.2)))) := by
  simp only [verLtb]
  split_ifs with h1 h2 <;> simp <;> omega

theorem verLtb_irrefl (a : Nat × Nat × Nat) : verLtb a a = false := by
  cases hb : verLtb a a with
  | false => rfl
  | true => have := (verLtb_iff a a).mp hb; omega

theorem verLtb_trans {a b c : Nat × Nat × Nat}
    (h1 : verLtb a b = true) (h2 : verLtb b c = true) : verLtb a c = true := by
  rw [verLtb_iff] at h1 h2 ⊢
  omega

theorem verLtb_negtrans {a b c : Nat × Nat × Nat}
    (h1 : verLtb a b = false) (h2 : verLtb b c = false) : verLtb a c = false := by
  cases hc : verLtb a c with
  | false => rfl
  | true =>
    have h3 := (verLtb_iff a c).mp hc
    have h4 : ¬ (a.1 < b.1 ∨ (a.1 = b.1 ∧ (a.2.1 < b.2.1 ∨ (a.2.1 = b.2.1 ∧ a.2.2 < b.2.2)))) := by
      rw [← verLtb_iff]; simp [h1]
    have h5 : ¬ (b.1 < c.1 ∨ (b.1 = c.1 ∧ (b.2.1 < c.2.1 ∨ (b.2.1 = c.2.1 ∧ b.2.2 < c.2.2)))) := by
      rw [← verLtb_iff]; simp [h2]
    omega

theorem dateWins_eq :
    (fun a b : Candidate => decide (dateCmp a b < 0)) =
      fun x y : Candidate => decide (y.updated < x.updated) := by
  funext a b
  rw [decide_eq_decide]
  simp only [dateCmp]
  omega

theorem verWins_eq :
    (fun a b : Candidate => decide (verCmp a b < 0)) =
      fun x y : Candidate => verLtb y.version x.version := by
  funext a b
  simp only [verCmp, rcompare]
  split_ifs with h1 h2
  · rw [h1]; decide
  · rw [Bool.not_eq_true] at h1; rw [h1]; decide
  · rw [Bool.not_eq_true] at h1; rw [h1]; decide

theorem getKey_setKey_self {α : Type} :
    ∀ (m : List (String × α)) (k : String) (v : α), getKey (setKey m k v) k = some v := by
  intro m
  induction m with
  | nil => intro k v; simp [getKey, setKey]
  | cons p rest ih =>
    intro k v
    by_cases h : p.1 = k
    · simp [setKey, h, getKey]
    · simp [setKey, h, getKey, ih]

theorem chunkArray_join_aux {α : Type} (size : Nat) (hs : 0 < size) :
    ∀ (n : Nat) (l : List α), l.length ≤ n → (chunkArray l size).flatten = l := by
  intro n
  induction n with
  | zero =>
    intro l hl
    have h0 : l = [] := List.length_eq_zero.mp (Nat.le_zero.mp hl)
    subst h0
    rw [chunkArray]
    simp
  | succ n ih =>
    intro l hl
    rw [chunkArray]
    by_cases h : l.isEmpty || size == 0
    · rw [if_pos h]
      have h1 : l = [] := by
        rcases Bool.or_eq_true _ _ |>.mp h with h2 | h2
        · exact List.isEmpty_iff.mp h2
        · exact absurd (beq_iff_eq.mp h2) (Nat.ne_of_gt hs)
      simp [h1]
    · rw [if_neg h]
      have h1 : l ≠ [] := by
        intro h2
        exact h (by simp [h2])
      have h2 : 0 < l.length := List.length_pos.mpr h1
      rw [List.flatten_cons, ih (l.drop size) (by simp [List.length_drop]; omega)]
      exact List.take_append_drop size l

theorem chunkArray_join {α : Type} (size : Nat) (hs : 0 < size) (l : List α) :
    (chunkArray l size).flatten = l :=
  chunkArray_join_aux size hs l.length l (Nat.le_refl _)

theorem chunkArray_length_le_aux {α : Type} (size : Nat) :
    ∀ (n : Nat) (l : List α), l.length ≤ n →
      ∀ c ∈ chunkArray l size, c.length ≤ size := by
  intro n
  induction n with
  | zero =>
    intro l hl c hc
    have h0 : l = [] := List.length_eq_zero.mp (Nat.le_zero.mp hl)
    subst h0
    rw [chunkArray] at hc
    simp at hc
  | succ n ih =>
    intro l hl c hc
    rw [chunkArray] at hc
    by_cases h : l.isEmpty || size == 0
    · rw [if_pos h] at hc
      cases hc
    · rw [if_neg h] at hc
      have h1 : l ≠ [] := by
        intro h2
        exact h (by simp [h2])
      have h2 : 0 < l.length := List.length_pos.mpr h1
      have h4 : size ≠ 0 := by
        intro h5
        exact h (by simp [h5])
      rcases List.mem_cons.mp hc with h3 | h3
      · rw [h3, List.length_take]
        exact Nat.min_le_left _ _
      · exact ih (l.drop size) (by simp [List.length_drop]; omega) c h3

theorem chunkArray_length_le {α : Type} (size : Nat) (l : List α) :
    ∀ c ∈ chunkArray l size, c.length ≤ size :=
  chunkArray_length_le_aux size l.length l (Nat.le_refl _)

theorem fetchLoop_abort (rest : List PageResp) :
    ∀ (good : List (List TagRecord)) (acc : List TagRecord),
      fetchLoop ((good.map fun rs => PageResp.page rs true) ++ PageResp.fail :: rest) acc =
        (acc ++ good.flatten, false, good.length + 1) := by
  intro good
  induction good with
  | nil => intro acc; simp [fetchLoop]
  | cons g gs ih =>
    intro acc
    simp [fetchLoop, ih (acc ++ g), List.flatten_cons, List.append_assoc]

theorem fetchLoop_calls_pos : ∀ (oracle : List PageResp) (acc : List TagRecord),
    1 ≤ (fetchLoop oracle acc).2.2 := by
  intro oracle acc
  match oracle with
  | [] => simp [fetchLoop]
  | PageResp.fail :: rest => simp [fetchLoop]
  | PageResp.page rs next :: rest =>
    by_cases h : next = true
    · simp [fetchLoop, h]
    · simp [fetchLoop, h]

theorem mem_semverCandidates {tags : List TagRecord} {c : Candidate}
    (h : c ∈ semverCandidates tags) :
    ∃ r ∈ tags, r.tag = c.tag ∧ (coerce c.tag).isSome = true := by
  simp only [semverCandidates, List.mem_map, List.mem_filter] at h
  obtain ⟨r, ⟨hr, hco⟩, hc⟩ := h
  refine ⟨r, hr, ?_, ?_⟩
  · rw [← hc]
  · rw [← hc]
    exact hco

/-- C1 counterexample: the Version Matcher does return a prerelease-tagged
entry — a catalog whose only entry is the rc-suffixed tag `"2.0.0-rc1"`
produces exactly that entry as the match for running tag `"latest"`,
because `semver.coerce` strips the `-rc1` suffix instead of discarding the
entry. -/
theorem prerelease_tag_returned :
    findLatestMatchingTag [⟨"2.0.0-rc1", 5⟩] "latest" = some "2.0.0-rc1" := by decide

/-- C1 (amended): the Version Matcher discards only entries whose tag
fails semver coercion; every match result is the tag of a catalog entry
that coerces to a valid version, but since coercion strips
alpha/beta/rc-style suffixes, a prerelease-tagged entry remains a
candidate and can be returned. -/
theorem matchResult_is_coercible_entry (tags : List TagRecord) (baseTag t : String)
    (h : findLatestMatchingTag tags baseTag = some t) :
    ∃ r ∈ tags, r.tag = t ∧ (coerce t).isSome = true := by
  by_cases hb : baseTag = "latest"
  · rw [findLatestMatchingTag, if_pos hb] at h
    obtain ⟨c, hc, hct⟩ := Option.map_eq_some'.mp h
    rw [head_sortJS] at hc
    obtain ⟨r, hr, hrt, hco⟩ := mem_semverCandidates (firstMaxBy_mem _ _ _ hc)
    exact ⟨r, hr, hrt.trans hct, hct ▸ hco⟩
  · rw [findLatestMatchingTag, if_neg hb] at h
    obtain ⟨c, hc, hct⟩ := Option.map_eq_some'.mp h
    rw [head_sortJS] at hc
    have hmem : c ∈ semverCandidates tags :=
      List.mem_of_mem_filter (firstMaxBy_mem _ _ _ hc)
    obtain ⟨r, hr, hrt, hco⟩ := mem_semverCandidates hmem
    exact ⟨r, hr, hrt.trans hct, hct ▸ hco⟩

/-- C1 witness: the amended theorem applied at a concrete catalog. -/
theorem matchResult_is_coercible_entry_witness :
    ∃ r ∈ [TagRecord.mk "1.2.3" 7], r.tag = "1.2.3" ∧ (coerce "1.2.3").isSome = true :=
  matchResult_is_coercible_entry [⟨"1.2.3", 7⟩] "latest" "1.2.3" (by decide)

/-- C2: when the running tag is not `"latest"`, any returned tag equals
the running tag, or extends it after `"."` or `"-"`, and its coerced
version is maximal (no family candidate has a strictly larger coerced
version). -/
theorem familyMatch_max (tags : List TagRecord) (baseTag t : String)
    (hne : baseTag ≠ "latest")
    (h : findLatestMatchingTag tags baseTag = some t) :
    (t = baseTag ∨ jsStartsWith t (baseTag ++ ".") = true ∨
      jsStartsWith t (baseTag ++ "-") = true) ∧
    ∃ c ∈ matchingCandidates tags baseTag, c.tag = t ∧
      ∀ u ∈ matchingCandidates tags baseTag, verLtb c.version u.version = false := by
  rw [findLatestMatchingTag, if_neg hne] at h
  obtain ⟨c, hc, hct⟩ := Option.map_eq_some'.mp h
  rw [head_sortJS, verWins_eq] at hc
  have hmem := firstMaxBy_mem _ _ _ hc
  have hmax := firstMaxBy_max (fun x y : Candidate => verLtb y.version x.version)
    (fun a => verLtb_irrefl a.version)
    (fun a b c h1 h2 => verLtb_trans h2 h1)
    (fun a b c h1 h2 => verLtb_negtrans h2 h1) _ _ hc
  have hp := (List.mem_filter.mp hmem).2
  rw [Bool.or_eq_true, Bool.or_eq_true] at hp
  constructor
  · rcases hp with (h1 | h1) | h1
    · exact Or.inr (Or.inl (hct ▸ h1))
    · exact Or.inl (hct ▸ beq_iff_eq.mp h1)
    · exact Or.inr (Or.inr (hct ▸ h1))
  · exact ⟨c, hmem, hct, fun u hu => hmax u hu⟩

/-- C2 witness: for running tag `"2.4"` the entry `"2.4.9"` is selected
although `"2.5.0"` is present and `"2.4.1"` is older. -/
theorem familyMatch_max_witness :
    ("2.4.9" = "2.4" ∨ jsStartsWith "2.4.9" ("2.4" ++ ".") = true ∨
      jsStartsWith "2.4.9" ("2.4" ++ "-") = true) ∧
    ∃ c ∈ matchingCandidates [⟨"2.5.0", 3⟩, ⟨"2.4.1", 1⟩, ⟨"2.4.9", 2⟩] "2.4", c.tag = "2.4.9" ∧
      ∀ u ∈ matchingCandidates [⟨"2.5.0", 3⟩, ⟨"2.4.1", 1⟩, ⟨"2.4.9", 2⟩] "2.4",
        verLtb c.version u.version = false :=
  familyMatch_max [⟨"2.5.0", 3⟩, ⟨"2.4.1", 1⟩, ⟨"2.4.9", 2⟩] "2.4" "2.4.9"
    (by decide) (by decide)

/-- C3: the Change Tracker is idempotent — a second evaluation with the
same (image, runningTag, latestTag), started from the state produced by
the first, never notifies, even when the running tag differs from the
latest tag. -/
theorem changeTracker_idempotent (image runningTag latestTag : String) (st : VState) :
    (evaluate image runningTag latestTag (evaluate image runningTag latestTag st).2).1 = false := by
  by_cases h : ((getKey st.announced image).getD false &&
      (getKey st.images image == some latestTag)) = true
  · simp [evaluate, h]
  · have h' := Bool.eq_false_iff.mpr h
    simp [evaluate, h', getKey_setKey_self]

/-- C4 counterexample: with a latest tag successfully resolved but the
(already announced, same tag) suppression branch taken, the source skips
`saveVersionData` entirely — nothing is persisted in that branch, contrary
to the claim that every resolved branch persists immediately. -/
theorem trackerStep_suppressed_no_persist :
    (fun _ _ : String => some "1.25.0") "nginx" "1.0" = some "1.25.0" ∧
    (processImage (fun _ _ => some "1.25.0")
        ⟨⟨[("nginx", "1.25.0")], [("nginx", true)]⟩, [], []⟩ ("nginx", "1.0")).persistLog = [] := by
  exact ⟨rfl, by decide⟩

/-- C4 (amended): whenever a latest tag is resolved, the post-step state
satisfies `images[image] = latestTag` and `announced[image] = true`; and
in every resolved branch except the already-announced suppression branch
the pair is written together and the new state is persisted before the
next image is processed.  In the suppression branch the state already
holds that pair and is left untouched, with no write. -/
theorem trackerStep_records_and_persists (resolve : String → String → Option String)
    (acc : CycleState) (image runningTag latest : String)
    (h : resolve image runningTag = some latest) :
    getKey (processImage resolve acc (image, runningTag)).state.images image = some latest ∧
    (getKey (processImage resolve acc (image, runningTag)).state.announced image).getD false
      = true ∧
    (((getKey acc.state.announced image).getD false &&
        (getKey acc.state.images image == some latest)) = false →
      (processImage resolve acc (image, runningTag)).persistLog =
        acc.persistLog ++ [(processImage resolve acc (image, runningTag)).state]) := by
  by_cases hs : ((getKey acc.state.announced image).getD false &&
      (getKey acc.state.images image == some latest)) = true
  · have h12 := (Bool.and_eq_true _ _).mp hs
    have h1 : (getKey acc.state.announced image).getD false = true := h12.1
    have h2 : getKey acc.state.images image = some latest := beq_iff_eq.mp h12.2
    have hres : processImage resolve acc (image, runningTag) = acc := by
      simp [processImage, h, hs]
    rw [hres]
    refine ⟨h2, h1, ?_⟩
    intro hf
    rw [hs] at hf
    cases hf
  · have hs' := Bool.eq_false_iff.mpr hs
    simp [processImage, h, hs', getKey_setKey_self]

/-- C4 witness: the amended theorem applied at a concrete fresh state. -/
theorem trackerStep_records_and_persists_witness :
    getKey (processImage (fun _ _ => some "2.0") ⟨⟨[], []⟩, [], []⟩
        ("app", "1.0")).state.images "app" = some "2.0" ∧
    (getKey (processImage (fun _ _ => some "2.0") ⟨⟨[], []⟩, [], []⟩
        ("app", "1.0")).state.announced "app").getD false = true ∧
    (((getKey (⟨⟨[], []⟩, [], []⟩ : CycleState).state.announced "app").getD false &&
        (getKey (⟨⟨[], []⟩, [], []⟩ : CycleState).state.images "app" == some "2.0")) = false →
      (processImage (fun _ _ => some "2.0") ⟨⟨[], []⟩, [], []⟩ ("app", "1.0")).persistLog =
        (⟨⟨[], []⟩, [], []⟩ : CycleState).persistLog ++
          [(processImage (fun _ _ => some "2.0") ⟨⟨[], []⟩, [], []⟩ ("app", "1.0")).state]) :=
  trackerStep_records_and_persists (fun _ _ => some "2.0") ⟨⟨[], []⟩, [], []⟩
    "app" "1.0" "2.0" rfl

/-- C5: when this exact latest tag was already announced for the image
(`announced[image]` true and `images[image] = latestTag`), the Change
Tracker suppresses the notification regardless of the running tag. -/
theorem changeTracker_suppress (image runningTag latestTag : String) (st : VState)
    (h1 : (getKey st.announced image).getD false = true)
    (h2 : getKey st.images image = some latestTag) :
    (evaluate image runningTag latestTag st).1 = false := by
  simp [evaluate, h1, h2]

/-- C5 witness: suppression at a concrete already-announced state with a
running tag that still differs from the latest tag. -/
theorem changeTracker_suppress_witness :
    (evaluate "app" "1.0" "2.0" ⟨[("app", "2.0")], [("app", true)]⟩).1 = false :=
  changeTracker_suppress "app" "1.0" "2.0" ⟨[("app", "2.0")], [("app", true)]⟩
    (by decide) (by decide)

/-- C6: a failing page (network error or non-2xx response) aborts
pagination and the fetch returns exactly the tag records accumulated from
the successful pages before it, whatever responses would have followed —
no failure propagates to the caller. -/
theorem fetchFailure_returns_accumulated (cache : List (String × List TagRecord))
    (image : String) (good : List (List TagRecord)) (rest : List PageResp)
    (hmiss : getKey cache image = none) :
    (getAllDockerHubTags cache image
        ((good.map fun rs => PageResp.page rs true) ++ PageResp.fail :: rest)).tags =
      good.flatten := by
  simp [getAllDockerHubTags, hmiss, fetchLoop_abort]

/-- C6 witness: one successful page followed by a failure yields exactly
that page's records. -/
theorem fetchFailure_returns_accumulated_witness :
    (getAllDockerHubTags [] "library/nginx"
        (([[⟨"1.25.0", 3⟩]].map fun rs => PageResp.page rs true) ++
          PageResp.fail :: [])).tags =
      [[TagRecord.mk "1.25.0" 3]].flatten :=
  fetchFailure_returns_accumulated [] "library/nginx" [[⟨"1.25.0", 3⟩]] [] (by decide)

/-- C7 counterexample: a running tag that merely begins with `"latest"`
does not get the full-catalog recency branch — with a non-empty coercible
catalog the matcher returns nothing for `"latest-x"`, because only exact
equality with `"latest"` selects that branch. -/
theorem latestIndicator_not_matched :
    findLatestMatchingTag [⟨"1.0.0", 5⟩] "latest-x" = none ∧
    semverCandidates [⟨"1.0.0", 5⟩] ≠ [] := by
  exact ⟨by decide, by decide⟩

/-- C7 (amended): when the running tag equals `"latest"` exactly, the
candidate set is the full coercible catalog and the result is the first
candidate, in catalog order, whose last-updated timestamp is maximal
(most recent first; ties broken by catalog order). -/
theorem latestTag_most_recent (tags : List TagRecord) :
    findLatestMatchingTag tags "latest" =
      (firstMaxBy (fun x y => decide (y.updated < x.updated))
        (semverCandidates tags)).map Candidate.tag ∧
    ∀ m, firstMaxBy (fun x y => decide (y.updated < x.updated))
        (semverCandidates tags) = some m →
      ∃ p q, semverCandidates tags = p ++ m :: q ∧ (∀ y ∈ p, y.updated < m.updated) ∧
        ∀ y ∈ semverCandidates tags, y.updated ≤ m.updated := by
  constructor
  · rw [findLatestMatchingTag, if_pos rfl, head_sortJS, dateWins_eq]
  · intro m hm
    exact firstMaxBy_first (fun c => c.updated) _ m hm

/-- C7 witness: the amended theorem applied at a concrete catalog where
the more recently updated entry wins. -/
theorem latestTag_most_recent_witness :
    findLatestMatchingTag [⟨"1.0.0", 1⟩, ⟨"2.0.0", 5⟩] "latest" =
      (firstMaxBy (fun x y => decide (y.updated < x.updated))
        (semverCandidates [⟨"1.0.0", 1⟩, ⟨"2.0.0", 5⟩])).map Candidate.tag ∧
    (∃ p q, semverCandidates [⟨"1.0.0", 1⟩, ⟨"2.0.0", 5⟩] =
        p ++ Candidate.mk "2.0.0" (2, 0, 0) 5 :: q ∧
      (∀ y ∈ p, y.updated < 5) ∧
      ∀ y ∈ semverCandidates [⟨"1.0.0", 1⟩, ⟨"2.0.0", 5⟩], y.updated ≤ 5) :=
  ⟨(latestTag_most_recent [⟨"1.0.0", 1⟩, ⟨"2.0.0", 5⟩]).1,
   (latestTag_most_recent [⟨"1.0.0", 1⟩, ⟨"2.0.0", 5⟩]).2
     ⟨"2.0.0", (2, 0, 0), 5⟩ (by decide)⟩

/-- C8: a cache hit returns the cached tag list unchanged, performs zero
network calls, and leaves the cache exactly as it was — entries are never
invalidated or replaced. -/
theorem fetchCache_hit (cache : List (String × List TagRecord)) (image : String)
    (oracle : List PageResp) (ts : List TagRecord)
    (h : getKey cache image = some ts) :
    getAllDockerHubTags cache image oracle = ⟨ts, cache, 0⟩ := by
  simp [getAllDockerHubTags, h]

/-- C8 witness: a concrete cache hit ignores even a failing oracle. -/
theorem fetchCache_hit_witness :
    getAllDockerHubTags [("library/redis", [⟨"7.2.3", 9⟩])] "library/redis" [PageResp.fail] =
      ⟨[⟨"7.2.3", 9⟩], [("library/redis", [⟨"7.2.3", 9⟩])], 0⟩ :=
  fetchCache_hit [("library/redis", [⟨"7.2.3", 9⟩])] "library/redis" [PageResp.fail]
    [⟨"7.2.3", 9⟩] (by decide)

/-- C9: the cycle's notification payloads are handed to the sink in groups
of at most 10 whose in-order concatenation is exactly the collected embed
list — every payload is delivered exactly once, in order. -/
theorem cycleBatches_partition (embeds : List (String × String × String)) :
    (sendBatches embeds).flatten = embeds ∧ ∀ c ∈ sendBatches embeds, c.length ≤ 10 :=
  ⟨chunkArray_join 10 (by decide) embeds, chunkArray_length_le 10 embeds⟩

/-- C10: a fetch that fails mid-pagination writes no cache entry — the
cache is returned unchanged (the accumulated tags are handed back but not
memoized), so any later call for the same image issues network requests
again. -/
theorem fetchFailure_not_cached (cache : List (String × List TagRecord))
    (image : String) (good : List (List TagRecord)) (rest : List PageResp)
    (hmiss : getKey cache image = none) :
    (getAllDockerHubTags cache image
        ((good.map fun rs => PageResp.page rs true) ++ PageResp.fail :: rest)).cache = cache ∧
    ∀ oracle2, 1 ≤ (getAllDockerHubTags cache image oracle2).networkCalls := by
  constructor
  · simp [getAllDockerHubTags, hmiss, fetchLoop_abort]
  · intro oracle2
    simp only [getAllDockerHubTags, hmiss]
    exact fetchLoop_calls_pos oracle2 []

/-- C10 witness: a concrete failed fetch leaves the empty cache empty and
a retry still reaches the network. -/
theorem fetchFailure_not_cached_witness :
    (getAllDockerHubTags [] "library/nginx"
        (([[⟨"1.25.0", 3⟩]].map fun rs => PageResp.page rs true) ++
          PageResp.fail :: [])).cache = [] ∧
    ∀ oracle2, 1 ≤ (getAllDockerHubTags [] "library/nginx" oracle2).networkCalls :=
  fetchFailure_not_cached [] "library/nginx" [[⟨"1.25.0", 3⟩]] [] (by decide)

